import Mathlib

/-!
Verification of the parry-chess combat engine and turn/state-synchronization
layer.  The definitions below are a shallow embedding of the game's source:

* `CombatSystem` (timing windows, parry classification, combo resolution),
* `Board` parry bookkeeping (`canParry` / `useParry`),
* `GameConfig.PIECE_COMBAT` (the static attack tables),
* `GameState.reconstructFEN` / `getCastlingRights` (position reconstruction),
* the AI reaction scheduler (`scheduleAIParry`).

Durations and timestamps are modelled as rationals (the source uses
millisecond numbers and divides them by 2); parry pools are naturals.
-/

namespace ParryChess

inductive PieceType where
  | pawn | knight | bishop | rook | queen | king
deriving DecidableEq

inductive Side where
  | white | black
deriving DecidableEq

/-- One attack of a combo, from `GameConfig.PIECE_COMBAT`
(`damage` is not used by the resolution logic and is omitted). -/
structure Attack where
  telegraphDuration : ℚ
  attackDuration : ℚ
  perfectWindow : ℚ
  normalWindow : ℚ
deriving DecidableEq

/-- Per piece type combat table entry (`comboCount` plus the attack list). -/
structure CombatData where
  comboCount : Nat
  attacks : List Attack
deriving DecidableEq

/-- The `PIECE_COMBAT` table from `GameConfig.js` (with the timing
multiplier at its configured value `1.0`, so `Math.round` is the identity). -/
def COMBAT_DATA : PieceType → CombatData
  | .pawn => ⟨1, [⟨800, 1000, 120, 240⟩]⟩
  | .knight => ⟨2, [⟨600, 1300, 110, 220⟩, ⟨1200, 700, 100, 200⟩]⟩
  | .bishop => ⟨2, [⟨800, 950, 105, 210⟩, ⟨850, 900, 105, 210⟩]⟩
  | .rook => ⟨3, [⟨1100, 1100, 140, 280⟩, ⟨950, 1000, 130, 260⟩, ⟨1000, 1050, 135, 270⟩]⟩
  | .queen => ⟨4, [⟨500, 1100, 90, 180⟩, ⟨1300, 650, 85, 170⟩,
      ⟨700, 1000, 80, 160⟩, ⟨900, 1100, 100, 200⟩]⟩
  | .king => ⟨2, [⟨850, 1000, 110, 220⟩, ⟨900, 950, 105, 210⟩]⟩

/-- The parts of a board piece the combat engine reads and writes. -/
structure Piece where
  ptype : PieceType
  parriesUsed : Nat
  maxParries : Nat
deriving DecidableEq

/-- `Board.canParry(piece)`: `piece.parriesUsed < piece.maxParries`. -/
def Board.canParry (p : Piece) : Bool :=
  p.parriesUsed < p.maxParries

/-- `Board.useParry(piece)`: increments `parriesUsed` (unconditionally). -/
def Board.useParry (p : Piece) : Piece :=
  { p with parriesUsed := p.parriesUsed + 1 }

/-- Classification of one reaction, `'miss' | 'normal' | 'perfect'`. -/
inductive AttackResult where
  | miss | normal | perfect
deriving DecidableEq

/-- Final combat verdict passed to `endCombat`. -/
inductive Verdict where
  | attackerWins | defenderWins | defenderSurvives
deriving DecidableEq

/-- The mutable `CombatSystem` fields that the resolution logic touches.
`verdict` records the argument of the `endCombat` call, `none` while the
contest is still running. -/
structure CombatState where
  attacker : Piece
  defender : Piece
  attackerIsKing : Bool
  currentAttackIndex : Nat
  perfectParryCount : Nat
  defenderCanParry : Bool
  parryAttempted : Bool
  parryTime : Option ℚ
  attackResolved : Bool
  inCombat : Bool
  verdict : Option Verdict
deriving DecidableEq

/-- `startCombat(attacker, defender, ...)` initialisation. -/
def startCombat (attacker defender : Piece) : CombatState :=
  { attacker := attacker
    defender := defender
    attackerIsKing := attacker.ptype = PieceType.king
    currentAttackIndex := 0
    perfectParryCount := 0
    defenderCanParry := Board.canParry defender
    parryAttempted := false
    parryTime := none
    attackResolved := false
    inCombat := true
    verdict := none }

/-- `endCombat(result)`: clears `inCombat` and reports the verdict. -/
def endCombat (result : Verdict) (s : CombatState) : CombatState :=
  { s with inCombat := false, verdict := some result }

/-- `applyAttackResult(result)`: consequence application and combo
advancement, translated branch for branch (including the unreachable
`defender_wins` check in the `normal` branch). -/
def applyAttackResult (cd : CombatData) (result : AttackResult) (s : CombatState) : CombatState :=
  match result with
  | .perfect =>
    let s1 : CombatState :=
      { s with perfectParryCount := s.perfectParryCount + 1
               attacker := Board.useParry s.attacker
               currentAttackIndex := s.currentAttackIndex + 1 }
    if s1.currentAttackIndex < cd.comboCount then s1
    else if s1.perfectParryCount = cd.comboCount then
      if s1.attackerIsKing then endCombat .defenderSurvives s1
      else endCombat .defenderWins s1
    else endCombat .defenderSurvives s1
  | .normal =>
    let s1 : CombatState :=
      { s with defender := Board.useParry s.defender
               attacker := Board.useParry s.attacker }
    let s2 : CombatState :=
      { s1 with defenderCanParry := Board.canParry s1.defender
                currentAttackIndex := s1.currentAttackIndex + 1 }
    if s2.currentAttackIndex < cd.comboCount then s2
    else if s2.perfectParryCount = cd.comboCount then endCombat .defenderWins s2
    else endCombat .defenderSurvives s2
  | .miss => endCombat .attackerWins s

/-- The classification step of `resolveAttack`: windows centred at
`total / 2`, perfect checked first, both interval checks inclusive. -/
def classify (atk : Attack) (parryAttempted : Bool) (parryTime : Option ℚ) : AttackResult :=
  let total := atk.telegraphDuration + atk.attackDuration
  let center := total / 2
  let perfectStart := center - atk.perfectWindow / 2
  let perfectEnd := center + atk.perfectWindow / 2
  let normalStart := center - atk.normalWindow / 2
  let normalEnd := center + atk.normalWindow / 2
  if parryAttempted then
    match parryTime with
    | some t =>
      if perfectStart ≤ t ∧ t ≤ perfectEnd then .perfect
      else if normalStart ≤ t ∧ t ≤ normalEnd then .normal
      else .miss
    | none => .miss
  else .miss

/-- `resolveAttack()`: guarded by `attackResolved`, then classifies the
recorded reaction of the current attack and applies the result. -/
def resolveAttack (cd : CombatData) (s : CombatState) : CombatState :=
  if s.attackResolved then s
  else
    match cd.attacks[s.currentAttackIndex]? with
    | none => s
    | some atk =>
      applyAttackResult cd (classify atk s.parryAttempted s.parryTime)
        { s with attackResolved := true }

/-- `attemptParry()` at reaction time `t` (milliseconds since attack start):
no-op when not in combat, already attempted, or the defender is depleted;
otherwise records the reaction and resolves immediately. -/
def attemptParry (cd : CombatData) (t : ℚ) (s : CombatState) : CombatState :=
  if ¬ s.inCombat ∨ s.parryAttempted then s
  else if ¬ s.defenderCanParry then s
  else resolveAttack cd { s with parryAttempted := true, parryTime := some t }

/-- The parry-window-end deadline callback inside `animateTimingCursor`:
resolves (as a miss) only if no parry was attempted and the attack is not
already resolved. -/
def deadlineResolve (cd : CombatData) (s : CombatState) : CombatState :=
  if ¬ s.parryAttempted ∧ ¬ s.attackResolved then resolveAttack cd s else s

/-- The per-attack state reset at the top of `startAttack()`. -/
def startAttack (s : CombatState) : CombatState :=
  { s with parryAttempted := false, parryTime := none, attackResolved := false }

/-- One attack of the loop: reset, optional reaction (through
`attemptParry`), then the window-end deadline. -/
def stepAttack (cd : CombatData) (reaction : Option ℚ) (s : CombatState) : CombatState :=
  match reaction with
  | some t => deadlineResolve cd (attemptParry cd t (startAttack s))
  | none => deadlineResolve cd (startAttack s)

/-- The attack loop: one `stepAttack` per attack until `endCombat` fires. -/
def runAttacks (cd : CombatData) (reactions : List (Option ℚ)) (s : CombatState) : CombatState :=
  match reactions with
  | [] => s
  | r :: rs => if s.verdict.isSome then s else runAttacks cd rs (stepAttack cd r s)

/-- A whole session: `startCombat` followed by the attack loop, with the
combat table selected by the attacker's piece type. -/
def runCombat (attacker defender : Piece) (reactions : List (Option ℚ)) : CombatState :=
  runAttacks (COMBAT_DATA attacker.ptype) reactions (startCombat attacker defender)

/-- Folding `applyAttackResult` over a list of per-attack results
(the abstract view of the attack loop used by the verdict claims). -/
def applyResults (cd : CombatData) (results : List AttackResult) (s : CombatState) : CombatState :=
  match results with
  | [] => s
  | r :: rs => if s.verdict.isSome then s else applyResults cd rs (applyAttackResult cd r s)

/-- The reaction offset computed by `scheduleAIParry`: for a perfect draw a
narrow sample around the center, otherwise `±(perfectWindow/2 + r·(normalWindow/2
− perfectWindow/2))` with `r` the uniform draw in `[0, 1)` and the sign chosen
by a coin flip. -/
def scheduleAIParryTime (atk : Attack) (willBePerfect : Bool) (earlySide : Bool) (r : ℚ) : ℚ :=
  let total := atk.telegraphDuration + atk.attackDuration
  let centerTime := total / 2
  if willBePerfect then
    let perfectVariance := atk.perfectWindow * (3 / 10)
    centerTime + (r - 1 / 2) * perfectVariance
  else
    let side : ℚ := if earlySide then -1 else 1
    let minOffset := atk.perfectWindow / 2
    let maxOffset := atk.normalWindow / 2
    let offset := minOffset + r * (maxOffset - minOffset)
    centerTime + side * offset

/-- A piece as seen by `GameState.reconstructFEN`: type, colour, logical
board coordinates (row 0 = rank 8) and the `hasMoved` flag. -/
structure BPiece where
  ptype : PieceType
  color : Side
  row : Nat
  col : Nat
  hasMoved : Bool
deriving DecidableEq

/-- The visual board: the `Board.pieces` array. -/
abbrev BoardModel := List BPiece

/-- `Board.getPieceAt(row, col)`: first piece of the array at that square. -/
def getPieceAt (board : BoardModel) (row col : Nat) : Option BPiece :=
  board.find? fun p => p.row == row && p.col == col

/-- `getPieceFENChar` restricted to its two inputs of interest. -/
def pieceChar : PieceType → Side → Char
  | .pawn, .black => 'p'
  | .knight, .black => 'n'
  | .bishop, .black => 'b'
  | .rook, .black => 'r'
  | .queen, .black => 'q'
  | .king, .black => 'k'
  | .pawn, .white => 'P'
  | .knight, .white => 'N'
  | .bishop, .white => 'B'
  | .rook, .white => 'R'
  | .queen, .white => 'Q'
  | .king, .white => 'K'

/-- `GameState.getPieceFENChar(piece)`. -/
def getPieceFENChar (p : BPiece) : Char :=
  pieceChar p.ptype p.color

/-- The `pieces` list collected by the row-major scan at the top of
`reconstructFEN` (each entry found through `getPieceAt`). -/
def scanPieces (board : BoardModel) : List BPiece :=
  (List.range 8).flatMap fun row =>
    (List.range 8).filterMap fun col => getPieceAt board row col

/-- One row of the intermediate `board` grid as FEN characters. -/
def rowCells (board : BoardModel) (row : Nat) : List (Option Char) :=
  (List.range 8).map fun col => (getPieceAt board row col).map getPieceFENChar

/-- The single character JavaScript appends for an empty-run count `n ≤ 9`
(`fenRow += emptyCount`). -/
def digitChar (n : Nat) : Char :=
  Char.ofNat (48 + n)

/-- The per-row encoding loop of `reconstructFEN` (`emptyCount` is the
accumulator). -/
def encodeRowAux : List (Option Char) → Nat → List Char
  | [], acc => if acc = 0 then [] else [digitChar acc]
  | some c :: rest, acc =>
    (if acc = 0 then [] else [digitChar acc]) ++ c :: encodeRowAux rest 0
  | none :: rest, acc => encodeRowAux rest (acc + 1)

/-- One `fenRow` of `reconstructFEN`. -/
def encodeRow (cells : List (Option Char)) : List Char :=
  encodeRowAux cells 0

/-- `fenRows.join('/')`. -/
def joinSlash : List (List Char) → List Char
  | [] => []
  | [row] => row
  | row :: rows => row ++ '/' :: joinSlash rows

/-- The `boardFEN` placement field built by `reconstructFEN`. -/
def placementField (board : BoardModel) : List Char :=
  joinSlash ((List.range 8).map fun row => encodeRow (rowCells board row))

/-- `GameState.getCastlingRights(pieces)`: four independent `find?` probes,
each right granted iff the side's (first-found) king sits on its home
square, the wing's rook sits on its home square, and neither has moved. -/
def getCastlingRights (pieces : List BPiece) : List Char :=
  let whiteKing := pieces.find? fun p => p.ptype == .king && p.color == .white
  let blackKing := pieces.find? fun p => p.ptype == .king && p.color == .black
  let wkRook := pieces.find? fun p =>
    p.ptype == .rook && p.color == .white && p.row == 7 && p.col == 7
  let wqRook := pieces.find? fun p =>
    p.ptype == .rook && p.color == .white && p.row == 7 && p.col == 0
  let bkRook := pieces.find? fun p =>
    p.ptype == .rook && p.color == .black && p.row == 0 && p.col == 7
  let bqRook := pieces.find? fun p =>
    p.ptype == .rook && p.color == .black && p.row == 0 && p.col == 0
  let cK : List Char :=
    match whiteKing, wkRook with
    | some k, some r =>
      if k.row == 7 && k.col == 4 && !k.hasMoved && !r.hasMoved then ['K'] else []
    | _, _ => []
  let cQ : List Char :=
    match whiteKing, wqRook with
    | some k, some r =>
      if k.row == 7 && k.col == 4 && !k.hasMoved && !r.hasMoved then ['Q'] else []
    | _, _ => []
  let ck : List Char :=
    match blackKing, bkRook with
    | some k, some r =>
      if k.row == 0 && k.col == 4 && !k.hasMoved && !r.hasMoved then ['k'] else []
    | _, _ => []
  let cq : List Char :=
    match blackKing, bqRook with
    | some k, some r =>
      if k.row == 0 && k.col == 4 && !k.hasMoved && !r.hasMoved then ['q'] else []
    | _, _ => []
  let s := cK ++ cQ ++ ck ++ cq
  if s = [] then ['-'] else s

/-- The value of the maximal leading-digit prefix. -/
def digitsPrefixVal : List Char → Nat → Nat
  | [], acc => acc
  | c :: cs, acc => if c.isDigit then digitsPrefixVal cs (acc * 10 + (c.toNat - 48)) else acc

/-- JavaScript `parseInt` on the canonical numeric fields that occur in a
serialized position (an unsigned decimal literal, or garbage): `none`
models `NaN`. -/
def parseIntJS (s : List Char) : Option Nat :=
  match s with
  | [] => none
  | c :: _ => if c.isDigit then some (digitsPrefixVal s 0) else none

/-- The six space-separated fields of the serialized position string
`${boardFEN} ${turn} ${castling} ${enPassant} ${halfmove} ${fullmove}`. -/
structure FEN where
  placement : List Char
  turn : Char
  castling : List Char
  enPassant : Char
  halfmove : List Char
  fullmove : Nat
deriving DecidableEq

/-- `GameState.reconstructFEN(nextTurn)`.  `nextTurn = none` models a call
with the argument omitted (JavaScript `undefined`); `oldFullmoveField` is
the sixth field of `this.chess.fen()`, the previous authoritative position.
`parseInt(oldParts[5]) || 1` maps both `NaN` and `0` to `1`. -/
def reconstructFEN (board : BoardModel) (nextTurn : Option Side)
    (oldFullmoveField : List Char) : FEN :=
  let pieces := scanPieces board
  let boardFEN := placementField board
  let turn : Char := if nextTurn == some .white then 'w' else 'b'
  let castling := getCastlingRights pieces
  let fullmove : Nat :=
    match parseIntJS oldFullmoveField with
    | none => 1
    | some 0 => 1
    | some k => k
  { placement := boardFEN
    turn := turn
    castling := castling
    enPassant := '-'
    halfmove := ['0']
    fullmove := fullmove }

/-- The argument GameScene passes to `syncChessJsWithBoard` at its two call
sites (`GameScene.js:214` and `GameScene.js:551`): the parameter is omitted,
so `nextTurn` is `undefined`. -/
def gameSceneSyncNextTurnArg : Option Side := none

/-- Modelled from the spec: the RulesOracle (the external chess library,
consumed but not built by this repository) reads one rank of the
board-placement field, expanding each digit into that many empty squares. -/
def parseRow : List Char → List (Option Char)
  | [] => []
  | c :: rest =>
    if c.isDigit then List.replicate (c.toNat - 48) none ++ parseRow rest
    else some c :: parseRow rest

/-- Modelled from the spec: the RulesOracle splits the placement field at
the `/` rank separators. -/
def splitSlash : List Char → List (List Char)
  | [] => [[]]
  | c :: rest =>
    if c = '/' then [] :: splitSlash rest
    else
      match splitSlash rest with
      | row :: rows => (c :: row) :: rows
      | [] => [[c]]

/-- Modelled from the spec: the RulesOracle `loadPosition` parse of the
placement field, succeeding iff it describes an 8 × 8 grid. -/
def loadPlacement (cs : List Char) : Option (List (List (Option Char))) :=
  let rows := (splitSlash cs).map parseRow
  if rows.length == 8 && rows.all (fun row => row.length == 8) then some rows else none

/-- The midpoint of an attack's total duration, at which both parry
windows are centred. -/
def attackCenter (atk : Attack) : ℚ :=
  (atk.telegraphDuration + atk.attackDuration) / 2

/-- The opponent of a side. -/
def oppositeSide : Side → Side
  | .white => .black
  | .black => .white

/-- The serialized side-to-move character of a side. -/
def sideChar (s : Side) : Char :=
  if s == .white then 'w' else 'b'

lemma applyAttackResult_attackResolved (cd : CombatData) (res : AttackResult) (s : CombatState) :
    (applyAttackResult cd res s).attackResolved = s.attackResolved := by
  cases res <;> simp only [applyAttackResult, endCombat] <;> split_ifs <;> rfl

lemma applyResults_of_isSome (cd : CombatData) (results : List AttackResult) (s : CombatState)
    (h : s.verdict.isSome) : applyResults cd results s = s := by
  cases results with
  | nil => rfl
  | cons r rs => simp [applyResults, h]

lemma runAttacks_of_isSome (cd : CombatData) (reactions : List (Option ℚ)) (s : CombatState)
    (h : s.verdict.isSome) : runAttacks cd reactions s = s := by
  cases reactions with
  | nil => rfl
  | cons r rs => simp [runAttacks, h]

/-- C8: per-attack consequence on the parry pools.  A `perfect` result
increments exactly the attacker's `parriesUsed`, a `normal` result
increments both pools, and a `miss` touches neither. -/
theorem applyAttackResult_parry_pool_deltas (cd : CombatData) (s : CombatState) :
    ((applyAttackResult cd .perfect s).attacker.parriesUsed = s.attacker.parriesUsed + 1
      ∧ (applyAttackResult cd .perfect s).defender.parriesUsed = s.defender.parriesUsed)
    ∧ ((applyAttackResult cd .normal s).attacker.parriesUsed = s.attacker.parriesUsed + 1
      ∧ (applyAttackResult cd .normal s).defender.parriesUsed = s.defender.parriesUsed + 1)
    ∧ ((applyAttackResult cd .miss s).attacker.parriesUsed = s.attacker.parriesUsed
      ∧ (applyAttackResult cd .miss s).defender.parriesUsed = s.defender.parriesUsed) := by
  refine ⟨⟨?_, ?_⟩, ⟨?_, ?_⟩, ?_, ?_⟩ <;>
    simp only [applyAttackResult, endCombat, Board.useParry] <;>
    split_ifs <;> rfl

/-- C5: the attack-resolution step is idempotent.  A second invocation of
`resolveAttack` on the post-resolution state (as in a race between the
reaction handler and the window-end deadline) is a no-op. -/
theorem resolveAttack_idempotent (cd : CombatData) (s : CombatState) :
    resolveAttack cd (resolveAttack cd s) = resolveAttack cd s := by
  by_cases h : s.attackResolved
  · simp [resolveAttack, h]
  · cases hg : cd.attacks[s.currentAttackIndex]? with
    | none =>
      have hr : resolveAttack cd s = s := by
        rw [resolveAttack]
        simp [h, hg]
      rw [hr]
      exact hr
    | some atk =>
      have h2 : (applyAttackResult cd (classify atk s.parryAttempted s.parryTime)
          { s with attackResolved := true }).attackResolved = true := by
        rw [applyAttackResult_attackResolved]
      have hr : resolveAttack cd s = applyAttackResult cd
          (classify atk s.parryAttempted s.parryTime) { s with attackResolved := true } := by
        rw [resolveAttack]
        simp [h, hg]
      rw [hr, resolveAttack]
      simp [h2]

/-- C3 (code evaluation): both GameScene call sites invoke
`syncChessJsWithBoard` with the `nextTurn` argument omitted, so the
reconstructed position's side-to-move field is `'b'` for every board —
including a blocked capture by a black attacker, where the claimed next
side is the opponent, `'w'`. -/
theorem blocked_capture_turn_always_black (board : BoardModel) (old : List Char) :
    (reconstructFEN board gameSceneSyncNextTurnArg old).turn = 'b'
      ∧ sideChar (oppositeSide Side.black) = 'w'
      ∧ ('b' : Char) ≠ 'w' :=
  ⟨rfl, rfl, by decide⟩

/-- C10: every reconstructed position has halfmove-clock field `"0"`, and a
fullmove field equal to the previous position's fullmove number (any
positive integer is carried unchanged; an unparseable previous field
defaults to `1`). -/
theorem reconstruction_halfmove_fullmove (board : BoardModel) (nextTurn : Option Side)
    (old : List Char) :
    (reconstructFEN board nextTurn old).halfmove = ['0']
    ∧ (∀ k : Nat, parseIntJS old = some k → 1 ≤ k →
        (reconstructFEN board nextTurn old).fullmove = k)
    ∧ (parseIntJS old = none → (reconstructFEN board nextTurn old).fullmove = 1) := by
  refine ⟨rfl, ?_, ?_⟩
  · intro k hk h1
    show (match parseIntJS old with
      | none => 1
      | some 0 => 1
      | some k => k) = k
    rw [hk]
    cases k with
    | zero => omega
    | succ n => rfl
  · intro hk
    show (match parseIntJS old with
      | none => 1
      | some 0 => 1
      | some k => k) = 1
    rw [hk]

theorem reconstruction_halfmove_fullmove_witness :
    parseIntJS ['4', '2'] = some 42
    ∧ (reconstructFEN [] none ['4', '2']).fullmove = 42 :=
  ⟨by decide, (reconstruction_halfmove_fullmove [] none ['4', '2']).2.1 42 (by decide) (by decide)⟩

/-- The full characterization of the reaction classification of one attack:
`perfect` exactly on the closed perfect window, `normal` exactly on the
closed normal window minus the perfect window, `miss` exactly outside the
normal window or when no reaction was recorded. -/
def ClassifyCharacterization (atk : Attack) (t : ℚ) : Prop :=
  (classify atk true (some t) = .perfect ↔
    attackCenter atk - atk.perfectWindow / 2 ≤ t ∧ t ≤ attackCenter atk + atk.perfectWindow / 2)
  ∧ (classify atk true (some t) = .normal ↔
    ((attackCenter atk - atk.normalWindow / 2 ≤ t ∧ t ≤ attackCenter atk + atk.normalWindow / 2)
      ∧ ¬(attackCenter atk - atk.perfectWindow / 2 ≤ t
            ∧ t ≤ attackCenter atk + atk.perfectWindow / 2)))
  ∧ (classify atk true (some t) = .miss ↔
    ¬(attackCenter atk - atk.normalWindow / 2 ≤ t ∧ t ≤ attackCenter atk + atk.normalWindow / 2))
  ∧ (∀ pt : Option ℚ, classify atk false pt = .miss)
  ∧ classify atk true none = .miss

lemma classify_closed (atk : Attack) (t : ℚ) :
    classify atk true (some t) =
      (if attackCenter atk - atk.perfectWindow / 2 ≤ t
            ∧ t ≤ attackCenter atk + atk.perfectWindow / 2
        then AttackResult.perfect
        else if attackCenter atk - atk.normalWindow / 2 ≤ t
            ∧ t ≤ attackCenter atk + atk.normalWindow / 2
        then AttackResult.normal
        else AttackResult.miss) := rfl

/-- C2: the classification of a reaction at time `t` relative to attack
start is `perfect` iff `t` lies in the closed perfect window around
`total/2`, `normal` iff it lies in the closed normal window but not the
perfect one, and `miss` iff there was no reaction or `t` lies outside the
normal window. -/
theorem classification_window_characterization (atk : Attack) (t : ℚ)
    (hw : atk.perfectWindow ≤ atk.normalWindow) : ClassifyCharacterization atk t := by
  refine ⟨?_, ?_, ?_, fun pt => rfl, rfl⟩
  · rw [classify_closed]
    split_ifs with h1 h2
    · exact iff_of_true rfl h1
    · exact iff_of_false (by simp) h1
    · exact iff_of_false (by simp) h1
  · rw [classify_closed]
    split_ifs with h1 h2
    · exact iff_of_false (by simp) fun h => h.2 h1
    · exact iff_of_true rfl ⟨h2, h1⟩
    · exact iff_of_false (by simp) fun h => h2 h.1
  · rw [classify_closed]
    split_ifs with h1 h2
    · have hN : attackCenter atk - atk.normalWindow / 2 ≤ t
          ∧ t ≤ attackCenter atk + atk.normalWindow / 2 :=
        ⟨by linarith [h1.1], by linarith [h1.2]⟩
      exact iff_of_false (by simp) fun hn => hn hN
    · exact iff_of_false (by simp) fun hn => hn h2
    · exact iff_of_true rfl h2

theorem classification_window_characterization_witness :
    (120 : ℚ) ≤ 240 ∧ ClassifyCharacterization ⟨800, 1000, 120, 240⟩ 840 :=
  ⟨by decide, classification_window_characterization ⟨800, 1000, 120, 240⟩ 840 (by decide)⟩

/-- What actually holds of the synthetic reaction source's target offset:
a perfect draw stays inside the closed perfect window; a non-perfect draw
stays inside the closed normal window at distance at least
`perfectWindow/2` from the center — outside the open interior of the
perfect window, but possibly exactly on its inclusive boundary. -/
def AIParryOffsetBounds (atk : Attack) (willBePerfect earlySide : Bool) (r : ℚ) : Prop :=
  (willBePerfect = true →
    attackCenter atk - atk.perfectWindow / 2 ≤ scheduleAIParryTime atk willBePerfect earlySide r
    ∧ scheduleAIParryTime atk willBePerfect earlySide r ≤ attackCenter atk + atk.perfectWindow / 2)
  ∧ (willBePerfect = false →
    (attackCenter atk - atk.normalWindow / 2 ≤ scheduleAIParryTime atk willBePerfect earlySide r
      ∧ scheduleAIParryTime atk willBePerfect earlySide r
          ≤ attackCenter atk + atk.normalWindow / 2)
    ∧ atk.perfectWindow / 2
        ≤ |scheduleAIParryTime atk willBePerfect earlySide r - attackCenter atk|)

lemma scheduleAIParryTime_perfect (atk : Attack) (es : Bool) (r : ℚ) :
    scheduleAIParryTime atk true es r
      = attackCenter atk + (r - 1 / 2) * (atk.perfectWindow * (3 / 10)) := rfl

lemma scheduleAIParryTime_early (atk : Attack) (r : ℚ) :
    scheduleAIParryTime atk false true r
      = attackCenter atk
        + (-1) * (atk.perfectWindow / 2 + r * (atk.normalWindow / 2 - atk.perfectWindow / 2)) := rfl

lemma scheduleAIParryTime_late (atk : Attack) (r : ℚ) :
    scheduleAIParryTime atk false false r
      = attackCenter atk
        + 1 * (atk.perfectWindow / 2 + r * (atk.normalWindow / 2 - atk.perfectWindow / 2)) := rfl

/-- C9 (amended): bounds on the synthetic reaction source's computed
offset.  The non-perfect branch can land exactly on the inclusive perfect
boundary (uniform draw `0`), so it is not strictly outside the perfect
window as classified by the engine. -/
theorem ai_parry_offset_bounds (atk : Attack) (willBePerfect earlySide : Bool) (r : ℚ)
    (h0 : 0 ≤ r) (h1 : r < 1) (hpw : 0 ≤ atk.perfectWindow)
    (hw : atk.perfectWindow ≤ atk.normalWindow) :
    AIParryOffsetBounds atk willBePerfect earlySide r := by
  constructor
  · intro hwp
    subst hwp
    rw [scheduleAIParryTime_perfect]
    have hx : (0 : ℚ) ≤ atk.perfectWindow * (3 / 10) := by
      have h310 : (0 : ℚ) ≤ (3 / 10 : ℚ) := by norm_num
      exact mul_nonneg hpw h310
    have k1 : (r - 1 / 2) * (atk.perfectWindow * (3 / 10))
        ≤ (1 / 2) * (atk.perfectWindow * (3 / 10)) :=
      mul_le_mul_of_nonneg_right (by linarith) hx
    have k2 : (-(1 / 2) : ℚ) * (atk.perfectWindow * (3 / 10))
        ≤ (r - 1 / 2) * (atk.perfectWindow * (3 / 10)) :=
      mul_le_mul_of_nonneg_right (by linarith) hx
    constructor <;> nlinarith
  · intro hwp
    subst hwp
    have hd : (0 : ℚ) ≤ atk.normalWindow / 2 - atk.perfectWindow / 2 := by linarith
    have ho1 : (0 : ℚ) ≤ r * (atk.normalWindow / 2 - atk.perfectWindow / 2) :=
      mul_nonneg h0 hd
    have ho2 : r * (atk.normalWindow / 2 - atk.perfectWindow / 2)
        ≤ atk.normalWindow / 2 - atk.perfectWindow / 2 :=
      mul_le_of_le_one_left hd (le_of_lt h1)
    cases earlySide with
    | true =>
      rw [scheduleAIParryTime_early]
      have hoff : attackCenter atk
          + (-1) * (atk.perfectWindow / 2 + r * (atk.normalWindow / 2 - atk.perfectWindow / 2))
          - attackCenter atk
          = -(atk.perfectWindow / 2 + r * (atk.normalWindow / 2 - atk.perfectWindow / 2)) := by
        ring
      refine ⟨⟨by linarith, by linarith⟩, ?_⟩
      rw [hoff, abs_neg, abs_of_nonneg (by linarith)]
      linarith
    | false =>
      rw [scheduleAIParryTime_late]
      have hoff : attackCenter atk
          + 1 * (atk.perfectWindow / 2 + r * (atk.normalWindow / 2 - atk.perfectWindow / 2))
          - attackCenter atk
          = atk.perfectWindow / 2 + r * (atk.normalWindow / 2 - atk.perfectWindow / 2) := by
        ring
      refine ⟨⟨by linarith, by linarith⟩, ?_⟩
      rw [hoff, abs_of_nonneg (by linarith)]
      linarith

theorem ai_parry_offset_bounds_witness :
    (0 : ℚ) ≤ 0 ∧ (0 : ℚ) < 1 ∧ (0 : ℚ) ≤ 120 ∧ (120 : ℚ) ≤ 240
    ∧ AIParryOffsetBounds ⟨800, 1000, 120, 240⟩ false false 0 :=
  ⟨by decide, by decide, by decide, by decide,
    ai_parry_offset_bounds ⟨800, 1000, 120, 240⟩ false false 0
      (by decide) (by decide) (by decide) (by decide)⟩

/-- C9 counterexample: with a failed perfect draw, uniform draw `0` and the
early side, the scheduled reaction of the pawn attack lands at `840` ms —
exactly the start of the perfect window — and the engine's classification
step classifies it `perfect`. -/
theorem ai_nonperfect_draw_classified_perfect :
    scheduleAIParryTime ⟨800, 1000, 120, 240⟩ false true 0 = 840
    ∧ classify ⟨800, 1000, 120, 240⟩ true
        (some (scheduleAIParryTime ⟨800, 1000, 120, 240⟩ false true 0)) = .perfect := by
  have h840 : scheduleAIParryTime ⟨800, 1000, 120, 240⟩ false true 0 = 840 := by
    rw [scheduleAIParryTime_early]
    show (800 + 1000 : ℚ) / 2 + (-1) * ((120 : ℚ) / 2 + 0 * ((240 : ℚ) / 2 - (120 : ℚ) / 2))
        = 840
    norm_num
  refine ⟨h840, ?_⟩
  rw [h840, classify_closed]
  rw [if_pos]
  show (800 + 1000 : ℚ) / 2 - (120 : ℚ) / 2 ≤ 840 ∧ (840 : ℚ) ≤ (800 + 1000) / 2 + 120 / 2
  constructor <;> norm_num

lemma applyAttackResult_perfect_fields (cd : CombatData) (s : CombatState) :
    (applyAttackResult cd .perfect s).currentAttackIndex = s.currentAttackIndex + 1
    ∧ (applyAttackResult cd .perfect s).perfectParryCount = s.perfectParryCount + 1
    ∧ (applyAttackResult cd .perfect s).attackerIsKing = s.attackerIsKing
    ∧ (applyAttackResult cd .perfect s).verdict =
        (if s.currentAttackIndex + 1 < cd.comboCount then s.verdict
          else if s.perfectParryCount + 1 = cd.comboCount then
            (if s.attackerIsKing then some Verdict.defenderSurvives
              else some Verdict.defenderWins)
          else some Verdict.defenderSurvives) := by
  refine ⟨?_, ?_, ?_, ?_⟩ <;>
    simp only [applyAttackResult, endCombat] <;> split_ifs <;> rfl

lemma applyAttackResult_normal_fields (cd : CombatData) (s : CombatState) :
    (applyAttackResult cd .normal s).currentAttackIndex = s.currentAttackIndex + 1
    ∧ (applyAttackResult cd .normal s).perfectParryCount = s.perfectParryCount
    ∧ (applyAttackResult cd .normal s).attackerIsKing = s.attackerIsKing
    ∧ (applyAttackResult cd .normal s).verdict =
        (if s.currentAttackIndex + 1 < cd.comboCount then s.verdict
          else if s.perfectParryCount = cd.comboCount then some Verdict.defenderWins
          else some Verdict.defenderSurvives) := by
  refine ⟨?_, ?_, ?_, ?_⟩ <;>
    simp only [applyAttackResult, endCombat] <;> split_ifs <;> rfl

lemma applyAttackResult_miss_fields (cd : CombatData) (s : CombatState) :
    (applyAttackResult cd .miss s).currentAttackIndex = s.currentAttackIndex
    ∧ (applyAttackResult cd .miss s).verdict = some Verdict.attackerWins :=
  ⟨rfl, rfl⟩

lemma applyResults_verdict (cd : CombatData) :
    ∀ (results : List AttackResult) (s : CombatState),
      s.verdict = none →
      s.currentAttackIndex + results.length = cd.comboCount →
      results ≠ [] →
      s.perfectParryCount ≤ s.currentAttackIndex →
      ((applyResults cd results s).verdict
        = some (if AttackResult.miss ∈ results then Verdict.attackerWins
            else if s.perfectParryCount = s.currentAttackIndex
                ∧ (∀ x ∈ results, x = AttackResult.perfect) then
              (if s.attackerIsKing then Verdict.defenderSurvives else Verdict.defenderWins)
            else Verdict.defenderSurvives))
      ∧ (AttackResult.miss ∈ results →
          (applyResults cd results s).currentAttackIndex
            = s.currentAttackIndex + results.findIdx (· == AttackResult.miss)) := by
  intro results
  induction results with
  | nil =>
    intro s _ _ hne _
    exact absurd rfl hne
  | cons r rs ih =>
    intro s hv hlen _ hp
    have hstep : applyResults cd (r :: rs) s
        = applyResults cd rs (applyAttackResult cd r s) := by
      simp [applyResults, hv]
    rw [hstep]
    rw [List.length_cons] at hlen
    cases r with
    | miss =>
      have hm : applyAttackResult cd .miss s = endCombat .attackerWins s := rfl
      rw [hm, applyResults_of_isSome cd rs _ (by simp [endCombat])]
      constructor
      · simp [endCombat]
      · intro _
        simp [endCombat, List.findIdx_cons]
    | perfect =>
      obtain ⟨hfi, hfp, hfk, hfv⟩ := applyAttackResult_perfect_fields cd s
      by_cases hlt : s.currentAttackIndex + 1 < cd.comboCount
      · have hrs : rs ≠ [] := by
          intro h
          subst h
          simp only [List.length_nil] at hlen
          omega
        have hv' : (applyAttackResult cd .perfect s).verdict = none := by
          rw [hfv, if_pos hlt, hv]
        have hlen' : (applyAttackResult cd .perfect s).currentAttackIndex + rs.length
            = cd.comboCount := by
          rw [hfi]
          omega
        have hp' : (applyAttackResult cd .perfect s).perfectParryCount
            ≤ (applyAttackResult cd .perfect s).currentAttackIndex := by
          rw [hfp, hfi]
          omega
        obtain ⟨ihv, ihi⟩ := ih (applyAttackResult cd .perfect s) hv' hlen' hrs hp'
        constructor
        · rw [ihv, hfk, hfp, hfi]
          by_cases hm : AttackResult.miss ∈ rs
          · simp [hm]
          · have hm2 : AttackResult.miss ∉ (AttackResult.perfect :: rs) := by
              simp [hm]
            by_cases hap : ∀ x ∈ rs, x = AttackResult.perfect
            · have hap2 : ∀ x ∈ (AttackResult.perfect :: rs), x = AttackResult.perfect := by
                intro x hx
                rcases List.mem_cons.mp hx with h | h
                · exact h
                · exact hap x h
              by_cases hpi : s.perfectParryCount = s.currentAttackIndex
              · simp [hm, hm2, hap, hap2, hpi]
              · have h1 : ¬ (s.perfectParryCount + 1 = s.currentAttackIndex + 1
                    ∧ ∀ x ∈ rs, x = AttackResult.perfect) := by
                  intro h
                  exact hpi (by omega)
                have h2 : ¬ (s.perfectParryCount = s.currentAttackIndex
                    ∧ ∀ x ∈ (AttackResult.perfect :: rs), x = AttackResult.perfect) := by
                  intro h
                  exact hpi h.1
                simp [hm, hm2, h1, h2]
            · have hap2 : ¬ ∀ x ∈ (AttackResult.perfect :: rs), x = AttackResult.perfect := by
                intro h
                exact hap fun x hx => h x (List.mem_cons_of_mem _ hx)
              simp [hm, hm2, hap, hap2]
        · intro hm
          have hm' : AttackResult.miss ∈ rs := by
            rcases List.mem_cons.mp hm with h | h
            · exact absurd h.symm (by simp)
            · exact h
          rw [ihi hm', hfi, List.findIdx_cons]
          simp only [show (AttackResult.perfect == AttackResult.miss) = false from rfl,
            cond_false]
          omega
      · have hrs : rs = [] := by
          cases rs with
          | nil => rfl
          | cons a l =>
            exfalso
            simp only [List.length_cons] at hlen
            omega
        subst hrs
        have happly : applyResults cd ([] : List AttackResult) (applyAttackResult cd .perfect s)
            = applyAttackResult cd .perfect s := rfl
        rw [happly]
        constructor
        · rw [hfv, if_neg hlt]
          by_cases hpi : s.perfectParryCount = s.currentAttackIndex
          · have hc : s.perfectParryCount + 1 = cd.comboCount := by omega
            rw [if_pos hc]
            have hcond : s.perfectParryCount = s.currentAttackIndex
                ∧ ∀ x ∈ [AttackResult.perfect], x = AttackResult.perfect := by
              refine ⟨hpi, ?_⟩
              intro x hx
              simpa using hx
            simp only [show (AttackResult.miss ∈ [AttackResult.perfect]) = False by simp,
              if_false, if_pos hcond]
            split_ifs <;> rfl
          · have hc : s.perfectParryCount + 1 ≠ cd.comboCount := by omega
            rw [if_neg hc]
            have hcond : ¬ (s.perfectParryCount = s.currentAttackIndex
                ∧ ∀ x ∈ [AttackResult.perfect], x = AttackResult.perfect) := by
              intro h
              exact hpi h.1
            simp [hcond, hpi]
        · intro hm
          simp at hm
    | normal =>
      obtain ⟨hfi, hfp, hfk, hfv⟩ := applyAttackResult_normal_fields cd s
      by_cases hlt : s.currentAttackIndex + 1 < cd.comboCount
      · have hrs : rs ≠ [] := by
          intro h
          subst h
          simp only [List.length_nil] at hlen
          omega
        have hv' : (applyAttackResult cd .normal s).verdict = none := by
          rw [hfv, if_pos hlt, hv]
        have hlen' : (applyAttackResult cd .normal s).currentAttackIndex + rs.length
            = cd.comboCount := by
          rw [hfi]
          omega
        have hp' : (applyAttackResult cd .normal s).perfectParryCount
            ≤ (applyAttackResult cd .normal s).currentAttackIndex := by
          rw [hfp, hfi]
          omega
        obtain ⟨ihv, ihi⟩ := ih (applyAttackResult cd .normal s) hv' hlen' hrs hp'
        constructor
        · rw [ihv, hfk, hfp, hfi]
          by_cases hm : AttackResult.miss ∈ rs
          · simp [hm]
          · have hm2 : AttackResult.miss ∉ (AttackResult.normal :: rs) := by
              simp [hm]
            have h1 : ¬ (s.perfectParryCount = s.currentAttackIndex + 1
                ∧ ∀ x ∈ rs, x = AttackResult.perfect) := by
              intro h
              omega
            have h2 : ¬ (s.perfectParryCount = s.currentAttackIndex
                ∧ ∀ x ∈ (AttackResult.normal :: rs), x = AttackResult.perfect) := by
              intro h
              have := h.2 AttackResult.normal (List.mem_cons_self _ _)
              simp at this
            simp [hm, hm2, h1, h2]
        · intro hm
          have hm' : AttackResult.miss ∈ rs := by
            rcases List.mem_cons.mp hm with h | h
            · exact absurd h.symm (by simp)
            · exact h
          rw [ihi hm', hfi, List.findIdx_cons]
          simp only [show (AttackResult.normal == AttackResult.miss) = false from rfl,
            cond_false]
          omega
      · have hrs : rs = [] := by
          cases rs with
          | nil => rfl
          | cons a l =>
            exfalso
            simp only [List.length_cons] at hlen
            omega
        subst hrs
        have happly : applyResults cd ([] : List AttackResult) (applyAttackResult cd .normal s)
            = applyAttackResult cd .normal s := rfl
        rw [happly]
        constructor
        · rw [hfv, if_neg hlt]
          have hc : s.perfectParryCount ≠ cd.comboCount := by omega
          rw [if_neg hc]
          have hcond : ¬ (s.perfectParryCount = s.currentAttackIndex
              ∧ ∀ x ∈ [AttackResult.normal], x = AttackResult.perfect) := by
            intro h
            have := h.2 AttackResult.normal (by simp)
            simp at this
          simp [hcond]
        · intro hm
          simp at hm

/-- The verdict of a completed session as a function of its per-attack
results: `attackerWins` at the first `miss`, otherwise `defenderWins`
exactly for an all-perfect combo with a non-king attacker, otherwise
`defenderSurvives`; a `miss` stops the combo at its own attack index. -/
def C1Prop (attacker defender : Piece) (results : List AttackResult) : Prop :=
  ((applyResults (COMBAT_DATA attacker.ptype) results (startCombat attacker defender)).verdict
    = some (if AttackResult.miss ∈ results then Verdict.attackerWins
        else if (∀ x ∈ results, x = AttackResult.perfect) then
          (if attacker.ptype = PieceType.king then Verdict.defenderSurvives
            else Verdict.defenderWins)
        else Verdict.defenderSurvives))
  ∧ (AttackResult.miss ∈ results →
      (applyResults (COMBAT_DATA attacker.ptype) results
          (startCombat attacker defender)).currentAttackIndex
        = results.findIdx (· == AttackResult.miss))

/-- C1: for every combat session, the final verdict is the stated function
of the per-attack results, and a session with a `miss` terminates at that
attack. -/
theorem combat_verdict_function_of_results (attacker defender : Piece)
    (results : List AttackResult)
    (hlen : results.length = (COMBAT_DATA attacker.ptype).comboCount)
    (hne : results ≠ []) : C1Prop attacker defender results := by
  obtain ⟨hv, hi⟩ := applyResults_verdict (COMBAT_DATA attacker.ptype) results
    (startCombat attacker defender) rfl
    (by simp only [startCombat]; omega) hne (by simp [startCombat])
  constructor
  · rw [hv]
    simp [startCombat]
  · intro hm
    rw [hi hm]
    simp [startCombat]

theorem combat_verdict_function_of_results_witness :
    [AttackResult.normal].length = (COMBAT_DATA PieceType.pawn).comboCount
    ∧ [AttackResult.normal] ≠ []
    ∧ C1Prop ⟨PieceType.pawn, 0, 1⟩ ⟨PieceType.pawn, 0, 1⟩ [AttackResult.normal] :=
  ⟨by decide, by decide,
    combat_verdict_function_of_results ⟨PieceType.pawn, 0, 1⟩ ⟨PieceType.pawn, 0, 1⟩
      [AttackResult.normal] (by decide) (by decide)⟩

lemma classify_not_attempted (atk : Attack) (pt : Option ℚ) :
    classify atk false pt = .miss := by
  cases pt <;> rfl

lemma COMBAT_DATA_attacks_head (t : PieceType) :
    ∃ atk, (COMBAT_DATA t).attacks[0]? = some atk := by
  cases t <;> exact ⟨_, rfl⟩

/-- The degenerate session of a depleted defender: verdict `attackerWins`,
terminated at the very first attack, with no perfect parry recorded and
both pieces' pools untouched. -/
def C7Prop (a d : Piece) (reactions : List (Option ℚ)) : Prop :=
  (runCombat a d reactions).verdict = some Verdict.attackerWins
  ∧ (runCombat a d reactions).currentAttackIndex = 0
  ∧ (runCombat a d reactions).perfectParryCount = 0
  ∧ (runCombat a d reactions).attacker = a
  ∧ (runCombat a d reactions).defender = d

/-- C7: a defender whose parry pool is exhausted at contest start can never
produce a `perfect` or `normal` outcome; whatever the reactions, the first
attack resolves `miss` and the session terminates at attack 0 with verdict
`attackerWins`. -/
theorem depleted_defender_always_loses (a d : Piece) (reactions : List (Option ℚ))
    (hdep : d.maxParries ≤ d.parriesUsed) (hne : reactions ≠ []) :
    C7Prop a d reactions := by
  have hcp : Board.canParry d = false := by
    simp only [Board.canParry, decide_eq_false_iff_not, not_lt]
    exact hdep
  cases reactions with
  | nil => exact absurd rfl hne
  | cons r rs =>
    obtain ⟨atk0, hatk⟩ := COMBAT_DATA_attacks_head a.ptype
    have hstep : stepAttack (COMBAT_DATA a.ptype) r (startCombat a d)
        = endCombat .attackerWins { startCombat a d with attackResolved := true } := by
      have hsa : startAttack (startCombat a d) = startCombat a d := rfl
      have hresolve : resolveAttack (COMBAT_DATA a.ptype) (startCombat a d)
          = endCombat .attackerWins { startCombat a d with attackResolved := true } := by
        rw [resolveAttack]
        simp only [startCombat, hcp]
        rw [hatk]
        simp only [Bool.false_eq_true, if_false, classify_not_attempted]
        rfl
      cases r with
      | none =>
        rw [stepAttack, hsa, deadlineResolve]
        rw [if_pos (by simp [startCombat])]
        exact hresolve
      | some t =>
        rw [stepAttack, hsa]
        have hap : attemptParry (COMBAT_DATA a.ptype) t (startCombat a d)
            = startCombat a d := by
          rw [attemptParry]
          rw [if_neg (by simp [startCombat])]
          rw [if_pos (by simp [startCombat, hcp])]
        rw [hap, deadlineResolve]
        rw [if_pos (by simp [startCombat])]
        exact hresolve
    have hrun : runCombat a d (r :: rs)
        = endCombat .attackerWins { startCombat a d with attackResolved := true } := by
      rw [runCombat, runAttacks]
      rw [if_neg (by simp [startCombat])]
      rw [hstep]
      exact runAttacks_of_isSome _ _ _ (by simp [endCombat])
    refine ⟨?_, ?_, ?_, ?_, ?_⟩ <;> rw [hrun] <;> rfl

theorem depleted_defender_always_loses_witness :
    (Piece.mk PieceType.pawn 1 1).maxParries ≤ (Piece.mk PieceType.pawn 1 1).parriesUsed
    ∧ ([some (950 : ℚ), some 950] : List (Option ℚ)) ≠ []
    ∧ C7Prop ⟨PieceType.knight, 0, 2⟩ ⟨PieceType.pawn, 1, 1⟩ [some 950, some 950] :=
  ⟨by decide, by decide,
    depleted_defender_always_loses ⟨PieceType.knight, 0, 2⟩ ⟨PieceType.pawn, 1, 1⟩
      [some 950, some 950] (by decide) (by decide)⟩

lemma classify_eq_normal (atk : Attack) (t : ℚ)
    (h1 : ¬ (attackCenter atk - atk.perfectWindow / 2 ≤ t
        ∧ t ≤ attackCenter atk + atk.perfectWindow / 2))
    (h2 : attackCenter atk - atk.normalWindow / 2 ≤ t
        ∧ t ≤ attackCenter atk + atk.normalWindow / 2) :
    classify atk true (some t) = .normal := by
  rw [classify_closed, if_neg h1, if_pos h2]

lemma pawn_session_800 (u : Nat) :
    runCombat ⟨.pawn, u, 1⟩ ⟨.pawn, 0, 1⟩ [some 800]
      = ⟨⟨.pawn, u + 1, 1⟩, ⟨.pawn, 1, 1⟩, false, 1, 0, false, true, some 800, true, false,
          some Verdict.defenderSurvives⟩ := by
  have hc800 : classify ⟨800, 1000, 120, 240⟩ true (some 800) = .normal := by
    refine classify_eq_normal _ _ ?_ ?_
    · intro h
      have h1 := h.1
      norm_num [attackCenter] at h1
    · constructor <;> norm_num [attackCenter]
  rw [runCombat, runAttacks]
  rw [if_neg (by simp [startCombat])]
  rw [stepAttack]
  have hsa : startAttack (startCombat ⟨.pawn, u, 1⟩ ⟨.pawn, 0, 1⟩)
      = startCombat ⟨.pawn, u, 1⟩ ⟨.pawn, 0, 1⟩ := rfl
  rw [hsa]
  have hap : attemptParry (COMBAT_DATA PieceType.pawn) 800
        (startCombat ⟨.pawn, u, 1⟩ ⟨.pawn, 0, 1⟩)
      = applyAttackResult (COMBAT_DATA PieceType.pawn) .normal
          { startCombat ⟨.pawn, u, 1⟩ ⟨.pawn, 0, 1⟩ with
              parryAttempted := true, parryTime := some 800, attackResolved := true } := by
    rw [attemptParry]
    rw [if_neg (by simp [startCombat])]
    rw [if_neg (by simp [startCombat, Board.canParry])]
    rw [resolveAttack]
    rw [if_neg (by simp [startCombat])]
    simp only [startCombat]
    rw [show (COMBAT_DATA PieceType.pawn).attacks[(0 : Nat)]?
        = some ⟨800, 1000, 120, 240⟩ from rfl]
    simp only [hc800]
  rw [hap]
  have happ : applyAttackResult (COMBAT_DATA PieceType.pawn) .normal
        { startCombat ⟨.pawn, u, 1⟩ ⟨.pawn, 0, 1⟩ with
            parryAttempted := true, parryTime := some 800, attackResolved := true }
      = ⟨⟨.pawn, u + 1, 1⟩, ⟨.pawn, 1, 1⟩, false, 1, 0, false, true, some 800, true, false,
          some Verdict.defenderSurvives⟩ := by
    simp [applyAttackResult, startCombat, Board.useParry, Board.canParry, COMBAT_DATA, endCombat]
  rw [happ, deadlineResolve]
  rw [if_neg (by simp)]
  rw [runAttacks]

/-- C4 counterexample: the attacker's parry pool is charged without any
bound check.  Starting from fresh pieces with `maxParries = 1` (the
fallback pool size), two consecutive capture attempts by the same pawn,
each parried normally, leave the attacking pawn with `parriesUsed = 2 >
maxParries = 1`, violating the claimed invariant. -/
theorem attacker_parry_pool_exceeds_max :
    ((runCombat ⟨.pawn, 0, 1⟩ ⟨.pawn, 0, 1⟩ [some 800]).attacker.parriesUsed = 1
      ∧ (runCombat ⟨.pawn, 0, 1⟩ ⟨.pawn, 0, 1⟩ [some 800]).attacker
          = ⟨PieceType.pawn, 1, 1⟩)
    ∧ (runCombat (runCombat ⟨.pawn, 0, 1⟩ ⟨.pawn, 0, 1⟩ [some 800]).attacker
          ⟨.pawn, 0, 1⟩ [some 800]).attacker.parriesUsed = 2
    ∧ (runCombat (runCombat ⟨.pawn, 0, 1⟩ ⟨.pawn, 0, 1⟩ [some 800]).attacker
          ⟨.pawn, 0, 1⟩ [some 800]).attacker.maxParries = 1
    ∧ ¬ ((runCombat (runCombat ⟨.pawn, 0, 1⟩ ⟨.pawn, 0, 1⟩ [some 800]).attacker
          ⟨.pawn, 0, 1⟩ [some 800]).attacker.parriesUsed
        ≤ (runCombat (runCombat ⟨.pawn, 0, 1⟩ ⟨.pawn, 0, 1⟩ [some 800]).attacker
          ⟨.pawn, 0, 1⟩ [some 800]).attacker.maxParries) := by
  have h1 := pawn_session_800 0
  have h2 := pawn_session_800 1
  refine ⟨⟨?_, ?_⟩, ?_, ?_, ?_⟩ <;> simp [h1, h2]

/-- The defender-side parry invariant the engine does maintain:
`defenderCanParry` is in sync with (a lower bound on) the pool, and the
pool never exceeds its maximum. -/
def DefenderInvariant (s : CombatState) : Prop :=
  (s.defenderCanParry = true → s.defender.parriesUsed < s.defender.maxParries)
  ∧ s.defender.parriesUsed ≤ s.defender.maxParries

lemma resolveAttack_defender_inv (cd : CombatData) (s : CombatState)
    (h : DefenderInvariant s)
    (hguard : s.parryAttempted = true → s.defenderCanParry = true) :
    DefenderInvariant (resolveAttack cd s) := by
  by_cases hres : s.attackResolved
  · rw [resolveAttack, if_pos hres]
    exact h
  · cases hg : cd.attacks[s.currentAttackIndex]? with
    | none =>
      have hr : resolveAttack cd s = s := by
        rw [resolveAttack]
        simp [hres, hg]
      rw [hr]
      exact h
    | some atk =>
      have hr : resolveAttack cd s = applyAttackResult cd
          (classify atk s.parryAttempted s.parryTime) { s with attackResolved := true } := by
        rw [resolveAttack]
        simp [hres, hg]
      rw [hr]
      cases hcl : classify atk s.parryAttempted s.parryTime with
      | miss =>
        exact h
      | perfect =>
        simp only [applyAttackResult]
        split_ifs <;> exact h
      | normal =>
        have hatt : s.parryAttempted = true := by
          by_contra hna
          rw [Bool.not_eq_true] at hna
          rw [hna, classify_not_attempted] at hcl
          exact AttackResult.noConfusion hcl
        have hcp : s.defenderCanParry = true := hguard hatt
        have hlt : s.defender.parriesUsed < s.defender.maxParries := h.1 hcp
        simp only [applyAttackResult]
        split_ifs <;>
          exact ⟨fun hc => by
              simp only [endCombat, Board.useParry, Board.canParry, decide_eq_true_eq] at hc
              exact hc,
            Nat.succ_le_of_lt hlt⟩

lemma stepAttack_defender_inv (cd : CombatData) (r : Option ℚ) (s : CombatState)
    (h : DefenderInvariant s) : DefenderInvariant (stepAttack cd r s) := by
  have hsa : DefenderInvariant (startAttack s) := h
  cases r with
  | none =>
    rw [stepAttack, deadlineResolve]
    split_ifs with hcond
    · exact resolveAttack_defender_inv cd _ hsa
        (fun hatt => absurd hatt (by simp [startAttack]))
    · exact hsa
  | some t =>
    rw [stepAttack]
    have hX : DefenderInvariant (attemptParry cd t (startAttack s)) := by
      rw [attemptParry]
      by_cases hb1 : (¬ (startAttack s).inCombat ∨ (startAttack s).parryAttempted)
      · rw [if_pos hb1]
        exact hsa
      · rw [if_neg hb1]
        by_cases hb2 : ¬ (startAttack s).defenderCanParry
        · rw [if_pos hb2]
          exact hsa
        · rw [if_neg hb2]
          refine resolveAttack_defender_inv cd _ hsa ?_
          intro _
          show (startAttack s).defenderCanParry = true
          exact not_not.mp hb2
    rw [deadlineResolve]
    split_ifs with hcond
    · exact resolveAttack_defender_inv cd _ hX (fun hatt => absurd hatt hcond.1)
    · exact hX

lemma runAttacks_defender_inv (cd : CombatData) (reactions : List (Option ℚ)) :
    ∀ s : CombatState, DefenderInvariant s → DefenderInvariant (runAttacks cd reactions s) := by
  induction reactions with
  | nil => exact fun s h => h
  | cons r rs ih =>
    intro s h
    rw [runAttacks]
    split_ifs with hv
    · exact h
    · exact ih _ (stepAttack_defender_inv cd r s h)

/-- C4 (amended): the defender's parry pool never exceeds its maximum —
`attemptParry` refuses a depleted defender and `canDefenderParry` is
recomputed after each normal parry — but the attacker's pool has no such
guard (see the counterexample). -/
theorem defender_parry_pool_bounded (a d : Piece) (reactions : List (Option ℚ))
    (hbound : d.parriesUsed ≤ d.maxParries) :
    (runCombat a d reactions).defender.parriesUsed
      ≤ (runCombat a d reactions).defender.maxParries := by
  have hinv : DefenderInvariant (startCombat a d) := by
    constructor
    · intro hc
      simpa [startCombat, Board.canParry] using hc
    · exact hbound
  exact (runAttacks_defender_inv (COMBAT_DATA a.ptype) reactions (startCombat a d) hinv).2

theorem defender_parry_pool_bounded_witness :
    (Piece.mk PieceType.pawn 0 1).parriesUsed ≤ (Piece.mk PieceType.pawn 0 1).maxParries
    ∧ (runCombat ⟨PieceType.rook, 0, 2⟩ ⟨PieceType.pawn, 0, 1⟩ [none]).defender.parriesUsed
        ≤ (runCombat ⟨PieceType.rook, 0, 2⟩ ⟨PieceType.pawn, 0, 1⟩ [none]).defender.maxParries :=
  ⟨by decide,
    defender_parry_pool_bounded ⟨PieceType.rook, 0, 2⟩ ⟨PieceType.pawn, 0, 1⟩ [none] (by decide)⟩

lemma digitChar_facts (m : Nat) (h1 : 1 ≤ m) (h2 : m ≤ 8) :
    (digitChar m).isDigit = true ∧ (digitChar m).toNat - 48 = m ∧ digitChar m ≠ '/' := by
  interval_cases m <;> exact ⟨by decide, by decide, by decide⟩

lemma pieceChar_not_digit (t : PieceType) (sd : Side) :
    (pieceChar t sd).isDigit = false ∧ pieceChar t sd ≠ '/' := by
  cases t <;> cases sd <;> exact ⟨by decide, by decide⟩

lemma parseRow_encodeRowAux :
    ∀ (cells : List (Option Char)) (acc : Nat),
      acc + cells.length ≤ 8 →
      (∀ c, some c ∈ cells → c.isDigit = false) →
      parseRow (encodeRowAux cells acc) = List.replicate acc none ++ cells := by
  intro cells
  induction cells with
  | nil =>
    intro acc hacc _
    by_cases h0 : acc = 0
    · subst h0
      rfl
    · simp only [encodeRowAux, if_neg h0]
      obtain ⟨hd, hv, _⟩ := digitChar_facts acc (by omega) (by simp at hacc; omega)
      simp [parseRow, hd, hv]
  | cons c0 rest ih =>
    intro acc hacc hc
    cases c0 with
    | none =>
      show parseRow (encodeRowAux rest (acc + 1)) = _
      rw [ih (acc + 1) (by simp at hacc ⊢; omega)
        (fun c h2 => hc c (List.mem_cons_of_mem _ h2))]
      rw [List.replicate_succ']
      simp
    | some c =>
      have hcnd : c.isDigit = false := hc c (List.mem_cons_self _ _)
      have hrest : parseRow (encodeRowAux rest 0) = rest := by
        have := ih 0 (by simp at hacc ⊢; omega)
          (fun c2 h2 => hc c2 (List.mem_cons_of_mem _ h2))
        simpa using this
      by_cases h0 : acc = 0
      · subst h0
        simp only [encodeRowAux, if_pos rfl, List.nil_append]
        simp [parseRow, hcnd, hrest]
      · simp only [encodeRowAux, if_neg h0]
        obtain ⟨hd, hv, _⟩ := digitChar_facts acc (by omega) (by simp at hacc; omega)
        simp [parseRow, hd, hv, hcnd, hrest]

lemma encodeRowAux_no_slash :
    ∀ (cells : List (Option Char)) (acc : Nat),
      acc + cells.length ≤ 8 →
      (∀ c, some c ∈ cells → c ≠ '/') →
      ∀ ch ∈ encodeRowAux cells acc, ch ≠ '/' := by
  intro cells
  induction cells with
  | nil =>
    intro acc hacc _ ch hch
    by_cases h0 : acc = 0
    · subst h0
      simp [encodeRowAux] at hch
    · simp only [encodeRowAux, if_neg h0] at hch
      obtain ⟨_, _, hs⟩ := digitChar_facts acc (by omega) (by simp at hacc; omega)
      simp at hch
      rw [hch]
      exact hs
  | cons c0 rest ih =>
    intro acc hacc hc ch hch
    cases c0 with
    | none =>
      exact ih (acc + 1) (by simp at hacc ⊢; omega)
        (fun c h2 => hc c (List.mem_cons_of_mem _ h2)) ch hch
    | some c =>
      have hcs : c ≠ '/' := hc c (List.mem_cons_self _ _)
      have htail : ∀ ch2 ∈ encodeRowAux rest 0, ch2 ≠ '/' :=
        ih 0 (by simp at hacc ⊢; omega) (fun c2 h2 => hc c2 (List.mem_cons_of_mem _ h2))
      by_cases h0 : acc = 0
      · simp only [encodeRowAux, if_pos h0, List.nil_append] at hch
        rcases List.mem_cons.mp hch with h | h
        · rw [h]; exact hcs
        · exact htail ch h
      · simp only [encodeRowAux, if_neg h0] at hch
        obtain ⟨_, _, hs⟩ := digitChar_facts acc (by omega) (by simp at hacc; omega)
        rcases List.mem_append.mp hch with h | h
        · simp at h
          rw [h]
          exact hs
        · rcases List.mem_cons.mp h with h2 | h2
          · rw [h2]; exact hcs
          · exact htail ch h2

lemma rowCells_length (b : BoardModel) (row : Nat) : (rowCells b row).length = 8 := by
  simp [rowCells]

lemma rowCells_chars (b : BoardModel) (row : Nat) (c : Char)
    (h : some c ∈ rowCells b row) : c.isDigit = false ∧ c ≠ '/' := by
  simp only [rowCells, List.mem_map] at h
  obtain ⟨col, _, hcol⟩ := h
  cases hp : getPieceAt b row col with
  | none => rw [hp] at hcol; simp at hcol
  | some p =>
    rw [hp] at hcol
    have hc : getPieceFENChar p = c := by
      simpa using hcol
    rw [← hc]
    exact pieceChar_not_digit p.ptype p.color

lemma parseRow_encodeRow (b : BoardModel) (row : Nat) :
    parseRow (encodeRow (rowCells b row)) = rowCells b row := by
  have := parseRow_encodeRowAux (rowCells b row) 0
    (by rw [rowCells_length])
    (fun c hc => (rowCells_chars b row c hc).1)
  simpa [encodeRow] using this

lemma encodeRow_no_slash (b : BoardModel) (row : Nat) :
    ∀ ch ∈ encodeRow (rowCells b row), ch ≠ '/' :=
  encodeRowAux_no_slash (rowCells b row) 0
    (by rw [rowCells_length])
    (fun c hc => (rowCells_chars b row c hc).2)

lemma splitSlash_no_slash (r : List Char) (h : ∀ c ∈ r, c ≠ '/') :
    splitSlash r = [r] := by
  induction r with
  | nil => rfl
  | cons c cs ih =>
    rw [splitSlash, if_neg (h c (List.mem_cons_self _ _))]
    rw [ih (fun c2 h2 => h c2 (List.mem_cons_of_mem _ h2))]

lemma splitSlash_append (r t : List Char) (h : ∀ c ∈ r, c ≠ '/') :
    splitSlash (r ++ '/' :: t) = r :: splitSlash t := by
  induction r with
  | nil =>
    rw [List.nil_append, splitSlash, if_pos rfl]
  | cons c cs ih =>
    rw [List.cons_append, splitSlash, if_neg (h c (List.mem_cons_self _ _))]
    rw [ih (fun c2 h2 => h c2 (List.mem_cons_of_mem _ h2))]

lemma splitSlash_joinSlash :
    ∀ rows : List (List Char), rows ≠ [] → (∀ r ∈ rows, ∀ c ∈ r, c ≠ '/') →
      splitSlash (joinSlash rows) = rows := by
  intro rows
  induction rows with
  | nil =>
    intro h
    exact absurd rfl h
  | cons r rs ih =>
    intro _ hno
    cases rs with
    | nil =>
      show splitSlash (joinSlash [r]) = [r]
      rw [show joinSlash [r] = r from rfl]
      exact splitSlash_no_slash r (hno r (List.mem_cons_self _ _))
    | cons r2 rs2 =>
      rw [show joinSlash (r :: r2 :: rs2) = r ++ '/' :: joinSlash (r2 :: rs2) from rfl]
      rw [splitSlash_append r _ (hno r (List.mem_cons_self _ _))]
      rw [ih (by simp) (fun r3 h3 => hno r3 (List.mem_cons_of_mem _ h3))]

lemma splitSlash_placementField (b : BoardModel) :
    splitSlash (placementField b)
      = (List.range 8).map fun row => encodeRow (rowCells b row) := by
  rw [placementField]
  apply splitSlash_joinSlash
  · simp [List.range_succ]
  · intro r hr c hcc
    simp only [List.mem_map, List.mem_range] at hr
    obtain ⟨row, _, rfl⟩ := hr
    exact encodeRow_no_slash b row c hcc

lemma loadPlacement_placementField (b : BoardModel) :
    loadPlacement (placementField b)
      = some ((List.range 8).map fun row => rowCells b row) := by
  rw [loadPlacement, splitSlash_placementField]
  rw [List.map_map]
  have hmap : (List.range 8).map (parseRow ∘ fun row => encodeRow (rowCells b row))
      = (List.range 8).map fun row => rowCells b row := by
    apply List.map_congr_left
    intro row _
    exact parseRow_encodeRow b row
  rw [hmap]
  rw [if_pos]
  rw [Bool.and_eq_true]
  constructor
  · simp
  · rw [List.all_eq_true]
    intro r hr
    simp only [List.mem_map, List.mem_range] at hr
    obtain ⟨row, _, rfl⟩ := hr
    simp [rowCells_length]

/-- Board invariant: at most one piece per square. -/
abbrev SquareUnique (b : BoardModel) : Prop :=
  ∀ a ∈ b, ∀ q ∈ b, a.row = q.row → a.col = q.col → a = q

/-- Board invariant: at most one king per side. -/
abbrev KingUnique (b : BoardModel) : Prop :=
  ∀ a ∈ b, ∀ q ∈ b, a.ptype = PieceType.king → q.ptype = PieceType.king →
    a.color = q.color → a = q

/-- The castling right the spec describes for one side and wing: king and
rook both on their home squares, neither ever moved. -/
def CastleRight (b : BoardModel) (sd : Side) (homeRow rookCol : Nat) : Prop :=
  (∃ k ∈ b, k.ptype = PieceType.king ∧ k.color = sd ∧ k.row = homeRow ∧ k.col = 4
      ∧ k.hasMoved = false)
  ∧ (∃ r ∈ b, r.ptype = PieceType.rook ∧ r.color = sd ∧ r.row = homeRow ∧ r.col = rookCol
      ∧ r.hasMoved = false)

lemma find?_eq_some_of_unique {α : Type} (l : List α) (p : α → Bool) (x : α)
    (hx : x ∈ l) (hpx : p x = true)
    (huniq : ∀ a ∈ l, p a = true → a = x) :
    l.find? p = some x := by
  induction l with
  | nil => simp at hx
  | cons a l ih =>
    by_cases hpa : p a = true
    · rw [List.find?_cons_of_pos _ hpa]
      rw [huniq a (List.mem_cons_self _ _) hpa]
    · rw [List.find?_cons_of_neg _ hpa]
      apply ih
      · rcases List.mem_cons.mp hx with h | h
        · subst h
          exact absurd hpx hpa
        · exact h
      · exact fun a2 h2 hp2 => huniq a2 (List.mem_cons_of_mem _ h2) hp2

lemma getPieceAt_self (b : BoardModel) (p : BPiece) (hp : p ∈ b)
    (hsq : SquareUnique b) : getPieceAt b p.row p.col = some p := by
  apply find?_eq_some_of_unique _ _ _ hp (by simp)
  intro a ha hpa
  simp only [Bool.and_eq_true, beq_iff_eq] at hpa
  exact hsq a ha p hp hpa.1 hpa.2

lemma mem_scanPieces (b : BoardModel) (p : BPiece) (hp : p ∈ b)
    (hr : p.row < 8) (hc : p.col < 8) (hsq : SquareUnique b) :
    p ∈ scanPieces b := by
  rw [scanPieces, List.mem_flatMap]
  refine ⟨p.row, by simpa using hr, ?_⟩
  rw [List.mem_filterMap]
  exact ⟨p.col, by simpa using hc, getPieceAt_self b p hp hsq⟩

lemma scanPieces_subset (b : BoardModel) : ∀ p ∈ scanPieces b, p ∈ b := by
  intro p hp
  rw [scanPieces, List.mem_flatMap] at hp
  obtain ⟨row, _, hp2⟩ := hp
  rw [List.mem_filterMap] at hp2
  obtain ⟨col, _, hfind⟩ := hp2
  exact List.mem_of_find?_eq_some hfind

lemma wing_iff (b : BoardModel) (hsq : SquareUnique b) (hk : KingUnique b)
    (sd : Side) (homeRow rookCol : Nat) (hhr : homeRow < 8) (hrc : rookCol < 8) :
    (∃ k r, (scanPieces b).find? (fun p => p.ptype == PieceType.king && p.color == sd) = some k
      ∧ (scanPieces b).find? (fun p => p.ptype == PieceType.rook && p.color == sd
          && p.row == homeRow && p.col == rookCol) = some r
      ∧ (k.row == homeRow && k.col == 4 && !k.hasMoved && !r.hasMoved) = true)
    ↔ CastleRight b sd homeRow rookCol := by
  constructor
  · rintro ⟨k, r, hK, hR, hcond⟩
    have hkp := List.find?_some hK
    have hkm := scanPieces_subset b k (List.mem_of_find?_eq_some hK)
    have hrp := List.find?_some hR
    have hrm := scanPieces_subset b r (List.mem_of_find?_eq_some hR)
    simp only [Bool.and_eq_true, beq_iff_eq, Bool.not_eq_true'] at hkp hrp hcond
    exact ⟨⟨k, hkm, hkp.1, hkp.2, hcond.1.1.1, hcond.1.1.2, hcond.1.2⟩,
      ⟨r, hrm, hrp.1.1.1, hrp.1.1.2, hrp.1.2, hrp.2, hcond.2⟩⟩
  · rintro ⟨⟨k, hkm, hk1, hk2, hk3, hk4, hk5⟩, ⟨r, hrm, hr1, hr2, hr3, hr4, hr5⟩⟩
    refine ⟨k, r, ?_, ?_, ?_⟩
    · apply find?_eq_some_of_unique _ _ _
        (mem_scanPieces b k hkm (by rw [hk3]; exact hhr) (by rw [hk4]; omega) hsq)
      · simp [hk1, hk2]
      · intro a ha hpa
        simp only [Bool.and_eq_true, beq_iff_eq] at hpa
        exact hk a (scanPieces_subset b a ha) k hkm hpa.1 hk1 (hpa.2.trans hk2.symm)
    · apply find?_eq_some_of_unique _ _ _
        (mem_scanPieces b r hrm (by rw [hr3]; exact hhr) (by rw [hr4]; exact hrc) hsq)
      · simp [hr1, hr2, hr3, hr4]
      · intro a ha hpa
        simp only [Bool.and_eq_true, beq_iff_eq] at hpa
        exact hsq a (scanPieces_subset b a ha) r hrm (hpa.1.2.trans hr3.symm)
          (hpa.2.trans hr4.symm)
    · simp [hk3, hk4, hk5, hr5]

lemma mem_dash_wrap (s : List Char) (ch : Char) (hch : ch ≠ '-') :
    (ch ∈ (if s = [] then ['-'] else s)) ↔ ch ∈ s := by
  split_ifs with h
  · subst h
    simp [hch]
  · exact Iff.rfl

lemma mem_ite_singleton (c : Bool) (ch c0 : Char) :
    (ch ∈ (if c = true then [c0] else ([] : List Char))) ↔ (c = true ∧ ch = c0) := by
  split_ifs with h <;> simp [h]

set_option maxHeartbeats 2000000 in
lemma mem_castling_wings (pieces : List BPiece) :
    (('K' ∈ getCastlingRights pieces) ↔
      (∃ k r, pieces.find? (fun p => p.ptype == PieceType.king && p.color == Side.white) = some k
        ∧ pieces.find? (fun p => p.ptype == PieceType.rook && p.color == Side.white
            && p.row == 7 && p.col == 7) = some r
        ∧ (k.row == 7 && k.col == 4 && !k.hasMoved && !r.hasMoved) = true))
    ∧ (('Q' ∈ getCastlingRights pieces) ↔
      (∃ k r, pieces.find? (fun p => p.ptype == PieceType.king && p.color == Side.white) = some k
        ∧ pieces.find? (fun p => p.ptype == PieceType.rook && p.color == Side.white
            && p.row == 7 && p.col == 0) = some r
        ∧ (k.row == 7 && k.col == 4 && !k.hasMoved && !r.hasMoved) = true))
    ∧ (('k' ∈ getCastlingRights pieces) ↔
      (∃ k r, pieces.find? (fun p => p.ptype == PieceType.king && p.color == Side.black) = some k
        ∧ pieces.find? (fun p => p.ptype == PieceType.rook && p.color == Side.black
            && p.row == 0 && p.col == 7) = some r
        ∧ (k.row == 0 && k.col == 4 && !k.hasMoved && !r.hasMoved) = true))
    ∧ (('q' ∈ getCastlingRights pieces) ↔
      (∃ k r, pieces.find? (fun p => p.ptype == PieceType.king && p.color == Side.black) = some k
        ∧ pieces.find? (fun p => p.ptype == PieceType.rook && p.color == Side.black
            && p.row == 0 && p.col == 0) = some r
        ∧ (k.row == 0 && k.col == 4 && !k.hasMoved && !r.hasMoved) = true)) := by
  refine ⟨?_, ?_, ?_, ?_⟩ <;>
    (simp only [getCastlingRights]
     rw [mem_dash_wrap _ _ (by decide)]
     simp only [List.mem_append]
     repeat' split
     all_goals simp_all)

/-- The round-trip contract of position reconstruction: the placement field
loads back into exactly the board's occupancy grid, the FEN character
determines piece type and colour, the side-to-move field encodes the chosen
side, each castling flag is granted iff the corresponding king and rook
stand unmoved on their home squares, and the en-passant field is `'-'`. -/
def C6Prop (b : BoardModel) (sd : Side) (old : List Char) : Prop :=
  loadPlacement (reconstructFEN b (some sd) old).placement
      = some ((List.range 8).map fun row => rowCells b row)
  ∧ (∀ t1 s1 t2 s2, pieceChar t1 s1 = pieceChar t2 s2 → t1 = t2 ∧ s1 = s2)
  ∧ ((reconstructFEN b (some sd) old).turn = 'w' ↔ sd = Side.white)
  ∧ ((reconstructFEN b (some sd) old).turn = 'b' ↔ sd = Side.black)
  ∧ ('K' ∈ (reconstructFEN b (some sd) old).castling ↔ CastleRight b Side.white 7 7)
  ∧ ('Q' ∈ (reconstructFEN b (some sd) old).castling ↔ CastleRight b Side.white 7 0)
  ∧ ('k' ∈ (reconstructFEN b (some sd) old).castling ↔ CastleRight b Side.black 0 7)
  ∧ ('q' ∈ (reconstructFEN b (some sd) old).castling ↔ CastleRight b Side.black 0 0)
  ∧ (reconstructFEN b (some sd) old).enPassant = '-'

/-- C6: round-trip of the reconstruction through the rules oracle's load,
for every board satisfying the board invariants and every chosen side. -/
theorem reconstruction_round_trip (b : BoardModel) (sd : Side) (old : List Char)
    (hsq : SquareUnique b) (hk : KingUnique b) : C6Prop b sd old := by
  have hplacement : (reconstructFEN b (some sd) old).placement = placementField b := rfl
  have hcastling : (reconstructFEN b (some sd) old).castling
      = getCastlingRights (scanPieces b) := rfl
  obtain ⟨hwK, hwQ, hbk, hbq⟩ := mem_castling_wings (scanPieces b)
  refine ⟨?_, ?_, ?_, ?_, ?_, ?_, ?_, ?_, rfl⟩
  · rw [hplacement]
    exact loadPlacement_placementField b
  · intro t1 s1 t2 s2
    cases t1 <;> cases s1 <;> cases t2 <;> cases s2 <;> decide
  · cases sd <;> simp [reconstructFEN]
  · cases sd <;> simp [reconstructFEN]
  · rw [hcastling, hwK]
    exact wing_iff b hsq hk Side.white 7 7 (by omega) (by omega)
  · rw [hcastling, hwQ]
    exact wing_iff b hsq hk Side.white 7 0 (by omega) (by omega)
  · rw [hcastling, hbk]
    exact wing_iff b hsq hk Side.black 0 7 (by omega) (by omega)
  · rw [hcastling, hbq]
    exact wing_iff b hsq hk Side.black 0 0 (by omega) (by omega)

theorem reconstruction_round_trip_witness :
    SquareUnique [⟨PieceType.king, Side.white, 7, 4, false⟩,
        ⟨PieceType.rook, Side.white, 7, 7, false⟩,
        ⟨PieceType.king, Side.black, 0, 4, false⟩]
    ∧ KingUnique [⟨PieceType.king, Side.white, 7, 4, false⟩,
        ⟨PieceType.rook, Side.white, 7, 7, false⟩,
        ⟨PieceType.king, Side.black, 0, 4, false⟩]
    ∧ C6Prop [⟨PieceType.king, Side.white, 7, 4, false⟩,
        ⟨PieceType.rook, Side.white, 7, 7, false⟩,
        ⟨PieceType.king, Side.black, 0, 4, false⟩] Side.white ['1'] :=
  ⟨by decide, by decide,
    reconstruction_round_trip _ _ _ (by decide) (by decide)⟩

end ParryChess
